import Mathlib

/-!
# Verification of the gamemode multiplayer session server

Shallow embedding of the socket server in `src/unnamed/part_015`
(the session coordinator: admission queue, player table, movement fan-out)
together with a spec-modelled Spawn Store (the server-side spawn-store code
is absent from the sources; only its client callers exist).

Connection ids are natural numbers.  The JavaScript object
`Record<string, PlayerState>` is embedded as an association list with the
object's update semantics (assignment replaces in place, new keys append).
`Math.random()` draws are inputs of the corresponding events.
-/

set_option maxRecDepth 100000

namespace Gamemode

open scoped List

abbrev ConnId := Nat

/-- `Vector3` from `src/types.ts`: `x, y, z : number`. -/
structure Vec3 where
  x : Rat
  y : Rat
  z : Rat
deriving DecidableEq

/-- `PlayerState` from `src/types.ts`. -/
structure PlayerState where
  id : ConnId
  position : Vec3
  rotation : Rat
  animation : String
  color : String
deriving DecidableEq

/-- Lowercase hexadecimal digit, as JavaScript `Number.toString(16)` uses. -/
def hexDigitChar (n : Nat) : Char :=
  if n < 10 then Char.ofNat (48 + n) else Char.ofNat (87 + n)

/-- Hexadecimal digits of `n`, most significant first; the first argument is
fuel (`n` itself suffices). -/
def hexAux : Nat → Nat → List Char
  | 0, _ => []
  | _ + 1, 0 => []
  | fuel + 1, n => hexAux fuel (n / 16) ++ [hexDigitChar (n % 16)]

/-- JavaScript `n.toString(16)` for a natural number. -/
def toHex (n : Nat) : String :=
  if n = 0 then "0" else String.mk (hexAux n n)

/-- `players[k]` lookup on the JS object. -/
def tableGet (t : List (ConnId × PlayerState)) (k : ConnId) : Option PlayerState :=
  match t.find? (fun e => e.1 == k) with
  | some e => some e.2
  | none => none

/-- `players[k] = v` on the JS object: replace in place when the key exists,
append otherwise. -/
def tableSet (t : List (ConnId × PlayerState)) (k : ConnId) (v : PlayerState) :
    List (ConnId × PlayerState) :=
  if (t.find? (fun e => e.1 == k)).isSome then
    t.map (fun e => if e.1 == k then (k, v) else e)
  else t ++ [(k, v)]

/-- `delete players[k]` on the JS object. -/
def tableDel (t : List (ConnId × PlayerState)) (k : ConnId) :
    List (ConnId × PlayerState) :=
  t.filter (fun e => e.1 != k)

/-- Server-to-client wire events emitted by the coordinator
(`spawnPointUpdated` belongs to the spec-modelled spawn-store handler). -/
inductive SMsg where
  | queueUpdate (pos : Nat)
  | loginAllowed
  | currentPlayers (table : List (ConnId × PlayerState))
  | newPlayer (p : PlayerState)
  | playerMoved (p : PlayerState)
  | playerDisconnected (id : ConnId)
  | spawnPointUpdated (v : Vec3)
deriving DecidableEq

/-- A wire message: destination connection id plus event. -/
abbrev Msg := ConnId × SMsg

/-- `MAX_PLAYERS = 20` (part_015 line 21, "Real limit for server capacity"). -/
def MAX_PLAYERS : Nat := 20

/-- The `for (let i = 0; i < slotsAvailable; i++)` loop of `manageQueue`
(part_015 lines 38-48): shift an id off the queue each iteration, emit
`loginAllowed` to it when its socket is live, stop when the queue empties. -/
def drainLoop : Nat → List ConnId → List ConnId → List Msg × List ConnId
  | 0, q, _ => ([], q)
  | _ + 1, [], _ => ([], [])
  | n + 1, c :: q, live =>
      let rest := drainLoop n q live
      ((if c ∈ live then [(c, SMsg.loginAllowed)] else []) ++ rest.1, rest.2)

/-- The `loginQueue.forEach((sid, index) => ...)` reshuffle broadcast of
`manageQueue` (part_015 lines 51-54), with `i` the running index. -/
def reshuffleAux (i : Nat) : List ConnId → List ConnId → List Msg
  | [], _ => []
  | c :: q, live =>
      (if c ∈ live then [(c, SMsg.queueUpdate (i + 1))] else []) ++
        reshuffleAux (i + 1) q live

/-- `manageQueue` (part_015 lines 29-57).  Arguments are the `players` table,
the `loginQueue` and the set of live sockets; returns the emitted messages
and the queue left after draining. -/
def manageQueue (players : List (ConnId × PlayerState)) (q live : List ConnId) :
    List Msg × List ConnId :=
  let currentCount := players.length
  if currentCount < MAX_PLAYERS ∧ 0 < q.length then
    let slotsAvailable := MAX_PLAYERS - currentCount
    let d := drainLoop slotsAvailable q live
    (d.1 ++ reshuffleAux 0 d.2 live, d.2)
  else ([], q)

/-- `socket.broadcast.emit(m)`: every live connection except the sender. -/
def broadcastExcept (live : List ConnId) (c : ConnId) (m : SMsg) : List Msg :=
  (live.filter (fun d => d != c)).map (fun d => (d, m))

/-- `io.emit(m)`: every live connection. -/
def broadcastAll (live : List ConnId) (m : SMsg) : List Msg :=
  live.map (fun d => (d, m))

/-- Whole-server state of part_015: the `players` table, the `loginQueue`,
and the set of live socket ids (`io.sockets.sockets`). -/
structure ServerState where
  players : List (ConnId × PlayerState)
  loginQueue : List ConnId
  live : List ConnId
deriving DecidableEq

def initState : ServerState := ⟨[], [], []⟩

/-- Handler invocations, one per socket event of part_015; `Math.random()`
draws appear as parameters (`rx`, `rz` for the position, `rc` for the color). -/
inductive Event where
  | connect (c : ConnId)
  | spawn (c : ConnId) (rx rz : Rat) (rc : Nat)
  | move (c : ConnId) (position : Vec3) (rotation : Rat) (animation : String)
  | pingSync (c : ConnId)
  | disconnect (c : ConnId)
deriving DecidableEq

/-- The player record built by the `spawn` handler (part_015 lines 71-84).
The draws `rx = (Math.random() - 0.5) * 40`, `rz = (Math.random() - 0.5) * 40`
and `rc = Math.floor(Math.random() * 16777215)` computed there are inputs of
the event; the record places them at `y = 5` with `rotation = 0`,
`animation = 'Idle'` and `color = '#' + rc.toString(16)`. -/
def spawnPlayer (c : ConnId) (rx rz : Rat) (rc : Nat) : PlayerState :=
  { id := c
    position := { x := rx, y := 5, z := rz }
    rotation := 0
    animation := "Idle"
    color := "#" ++ toHex rc }

/-- One handler invocation of part_015, returning the new state and the
messages emitted (in emission order). -/
def step (s : ServerState) : Event → ServerState × List Msg
  | .connect c =>
      let live₁ := s.live ++ [c]
      let q₁ := s.loginQueue ++ [c]
      let mq := manageQueue s.players q₁ live₁
      (⟨s.players, mq.2, live₁⟩, (c, SMsg.queueUpdate q₁.length) :: mq.1)
  | .spawn c rx rz rc =>
      let p := spawnPlayer c rx rz rc
      let players₁ := tableSet s.players c p
      let mq := manageQueue players₁ s.loginQueue s.live
      (⟨players₁, mq.2, s.live⟩,
        (c, SMsg.currentPlayers players₁) ::
          (broadcastExcept s.live c (SMsg.newPlayer p) ++ mq.1))
  | .move c pos rot anim =>
      match tableGet s.players c with
      | some pl =>
          let pl₁ := { pl with position := pos, rotation := rot, animation := anim }
          (⟨tableSet s.players c pl₁, s.loginQueue, s.live⟩,
            broadcastExcept s.live c (SMsg.playerMoved pl₁))
      | none => (s, [])
  | .pingSync _ => (s, [])
  | .disconnect c =>
      let live₁ := s.live.erase c
      let q₁ := s.loginQueue.erase c
      let pm :=
        match tableGet s.players c with
        | some _ => (tableDel s.players c, broadcastAll live₁ (SMsg.playerDisconnected c))
        | none => (s.players, ([] : List Msg))
      let mq := manageQueue pm.1 q₁ live₁
      (⟨pm.1, mq.2, live₁⟩, pm.2 ++ mq.1)

/-- An event is well formed when it comes from a live socket (`connect`
requires a fresh id: socket.io never reuses a live id). -/
def wfEvent (s : ServerState) : Event → Prop
  | .connect c => c ∉ s.live
  | .spawn c _ _ _ => c ∈ s.live
  | .move c _ _ _ => c ∈ s.live
  | .pingSync c => c ∈ s.live
  | .disconnect c => c ∈ s.live

instance (s : ServerState) (e : Event) : Decidable (wfEvent s e) := by
  cases e <;> (simp only [wfEvent]; infer_instance)

/-- Run a list of events. -/
def runFrom (s : ServerState) : List Event → ServerState
  | [] => s
  | e :: es => runFrom (step s e).1 es

/-- All messages emitted while running a list of events, in order. -/
def outputsFrom (s : ServerState) : List Event → List Msg
  | [] => []
  | e :: es => (step s e).2 ++ outputsFrom (step s e).1 es

/-- Every event of the trace is well formed at the state it meets. -/
def wfTrace (s : ServerState) : List Event → Prop
  | [] => True
  | e :: es => wfEvent s e ∧ wfTrace (step s e).1 es

def decWfTrace (s : ServerState) : (es : List Event) → Decidable (wfTrace s es)
  | [] => .isTrue trivial
  | e :: es => @instDecidableAnd _ _ _ (decWfTrace (step s e).1 es)

instance (s : ServerState) (es : List Event) : Decidable (wfTrace s es) :=
  decWfTrace s es

/-- A state the server can be in after some well-formed trace from startup. -/
def Reachable (s : ServerState) : Prop :=
  ∃ es, wfTrace initState es ∧ runFrom initState es = s

/-- State invariant: live ids are distinct, the queue is duplicate-free and
contains only live ids, and every player record carries its own key as `id`. -/
def Inv (s : ServerState) : Prop :=
  s.live.Nodup ∧ s.loginQueue.Nodup ∧ (∀ c ∈ s.loginQueue, c ∈ s.live) ∧
    (∀ e ∈ s.players, e.2.id = e.1)

instance (s : ServerState) : Decidable (Inv s) := by
  unfold Inv; infer_instance

/-- The value of the most recent `queueUpdate` delivered to `d` in a message
list, when any. -/
def lastQueueUpdate (d : ConnId) : List Msg → Option Nat
  | [] => none
  | m :: ms =>
      match lastQueueUpdate d ms with
      | some v => some v
      | none =>
          match m with
          | (d', SMsg.queueUpdate v) => if d' = d then some v else none
          | _ => none

/-- Abbreviation for the admission message to `x`. -/
def laMsg (x : ConnId) : Msg := (x, SMsg.loginAllowed)

/-- At no point of the output stream has `b`'s `loginAllowed` been emitted
without `a`'s having been emitted already. -/
def GoodOut (a b : ConnId) (out : List Msg) : Prop :=
  ∀ n, laMsg b ∈ out.take n → laMsg a ∈ out.take n

/-- The condition under which the handler for `e` reaches the drain-and-
reshuffle branch of `manageQueue` (part_015 line 33), written out per event
at the point of the call. -/
def reshuffleRan (s : ServerState) : Event → Prop
  | .connect _ => s.players.length < MAX_PLAYERS
  | .spawn c rx rz rc =>
      (tableSet s.players c (spawnPlayer c rx rz rc)).length < MAX_PLAYERS ∧
        0 < s.loginQueue.length
  | .move _ _ _ _ => False
  | .pingSync _ => False
  | .disconnect c =>
      (match tableGet s.players c with
        | some _ => tableDel s.players c
        | none => s.players).length < MAX_PLAYERS ∧
        0 < (s.loginQueue.erase c).length

instance (s : ServerState) (e : Event) : Decidable (reshuffleRan s e) := by
  cases e <;> (simp only [reshuffleRan]; infer_instance)

/-- Modelled from the spec: the Spawn Store state (§4.2) — the in-memory
`SpawnPoint` plus the parse result of `spawn_config.json` (`none` when the
file is absent or malformed).  The server-side store is missing from the
sources; only its client callers (`MapEditor`) exist. -/
structure SpawnStore where
  value : Vec3
  file : Option Vec3
deriving DecidableEq

/-- Modelled from the spec: the default spawn point `(0,5,0)`. -/
def defaultSpawnPoint : Vec3 := ⟨0, 5, 0⟩

/-- Modelled from the spec: `set(p)` updates the in-memory value and
atomically writes the JSON file (write to temp, rename); `ok = false` is the
`IoError` case, where the in-memory value is still updated and the file keeps
its previous content. -/
def spawnStoreSet (st : SpawnStore) (p : Vec3) (ok : Bool) : SpawnStore :=
  { value := p, file := if ok then some p else st.file }

/-- Modelled from the spec: `get()` returns the in-memory value, never
failing. -/
def spawnStoreGet (st : SpawnStore) : Vec3 := st.value

/-- Modelled from the spec: `load()` at process start reads the file and
retains the default on absent or malformed content. -/
def spawnStoreLoad (file : Option Vec3) : SpawnStore :=
  { value := file.getD defaultSpawnPoint, file := file }

/-- Modelled from the spec: the coordinator's `updateSpawnPoint` handler
(§4.5) — `SpawnStore.set(vec)` then `broadcast(spawnPointUpdated, vec)` to
every live connection.  Missing from the sources; `handleSave` in the
`MapEditor` client emits the event. -/
def updateSpawnPoint (st : SpawnStore) (live : List ConnId) (v : Vec3)
    (ok : Bool) : SpawnStore × List Msg :=
  (spawnStoreSet st v ok, broadcastAll live (SMsg.spawnPointUpdated v))

/-- 21 sessions connect before any of them spawns; the server admits all of
them because `manageQueue` counts only spawned players. -/
def capConnects : List Event :=
  (List.range 21).map (fun i => Event.connect (i + 1))

/-- The 21 admitted sessions then all spawn. -/
def capSpawns : List Event :=
  (List.range 21).map (fun i => Event.spawn (i + 1) 0 0 0)

def capTrace : List Event := capConnects ++ capSpawns

/-- 20 sessions connect and spawn, filling the server to `MAX_PLAYERS`. -/
def fullLobby : List Event :=
  ((List.range 20).map (fun i => Event.connect (i + 1))) ++
    ((List.range 20).map (fun i => Event.spawn (i + 1) 0 0 0))

/-- A full server with two further sessions waiting in the queue. -/
def fullWithQueue : List Event :=
  fullLobby ++ [Event.connect 21, Event.connect 22]

/-- One session connects, is admitted and spawns. -/
def soloSpawn : List Event := [Event.connect 1, Event.spawn 1 0 0 0]

section Lemmas

theorem lastQueueUpdate_append (d : ConnId) (xs ys : List Msg) :
    lastQueueUpdate d (xs ++ ys) =
      match lastQueueUpdate d ys with
      | some v => some v
      | none => lastQueueUpdate d xs := by
  induction xs with
  | nil => cases h : lastQueueUpdate d ys <;> simp [lastQueueUpdate, h]
  | cons m xs ih =>
      simp only [List.cons_append, lastQueueUpdate, List.append_eq]
      rw [ih]
      cases lastQueueUpdate d ys <;> cases lastQueueUpdate d xs <;> rfl

theorem drainLoop_queue_sublist (n : Nat) (q live : List ConnId) :
    (drainLoop n q live).2 <+ q := by
  induction n generalizing q with
  | zero => simp [drainLoop]
  | succ n ih =>
      cases q with
      | nil => simp [drainLoop]
      | cons c q =>
          simp only [drainLoop]
          exact (ih q).trans (List.sublist_cons_self c q)

theorem drainLoop_status (n : Nat) (q live : List ConnId) (a : ConnId)
    (halive : a ∈ live) (hq : a ∈ q) :
    a ∈ (drainLoop n q live).2 ∨ laMsg a ∈ (drainLoop n q live).1 := by
  induction n generalizing q with
  | zero => simp [drainLoop, hq]
  | succ n ih =>
      cases q with
      | nil => cases hq
      | cons c q =>
          rcases List.mem_cons.mp hq with rfl | hmem
          · right; simp [drainLoop, halive, laMsg]
          · rcases ih q hmem with h | h
            · left; simpa [drainLoop] using h
            · right; simp [drainLoop, h]

theorem drainLoop_la_live (n : Nat) (q live : List ConnId) (x : ConnId)
    (h : laMsg x ∈ (drainLoop n q live).1) : x ∈ live := by
  induction n generalizing q with
  | zero => simp [drainLoop] at h
  | succ n ih =>
      cases q with
      | nil => simp [drainLoop] at h
      | cons c q =>
          simp only [drainLoop, List.mem_append] at h
          rcases h with h | h
          · by_cases hc : c ∈ live
            · simp only [if_pos hc, List.mem_singleton, laMsg, Prod.mk.injEq] at h
              exact h.1 ▸ hc
            · simp [if_neg hc] at h
          · exact ih q h

theorem drainLoop_no_queueUpdate (n : Nat) (q live : List ConnId) (d : ConnId) :
    lastQueueUpdate d (drainLoop n q live).1 = none := by
  induction n generalizing q with
  | zero => simp [drainLoop, lastQueueUpdate]
  | succ n ih =>
      cases q with
      | nil => simp [drainLoop, lastQueueUpdate]
      | cons c q =>
          simp only [drainLoop, lastQueueUpdate_append, ih q]
          by_cases hc : c ∈ live <;> simp [hc, lastQueueUpdate]

theorem reshuffleAux_no_la (i : Nat) (q live : List ConnId) (x : ConnId) :
    laMsg x ∉ reshuffleAux i q live := by
  induction q generalizing i with
  | nil => simp [reshuffleAux]
  | cons c q ih =>
      simp only [reshuffleAux, List.mem_append]
      rintro (h | h)
      · by_cases hc : c ∈ live
        · simp [if_pos hc, laMsg] at h
        · simp [if_neg hc] at h
      · exact ih (i + 1) h

theorem reshuffleAux_not_mem (i : Nat) (q live : List ConnId) (d : ConnId)
    (hd : d ∉ q) : lastQueueUpdate d (reshuffleAux i q live) = none := by
  induction q generalizing i with
  | nil => simp [reshuffleAux, lastQueueUpdate]
  | cons c q ih =>
      have hdc : d ≠ c := fun h => hd (h ▸ List.mem_cons_self c q)
      have hdq : d ∉ q := fun h => hd (List.mem_cons_of_mem _ h)
      have hcd : ¬ c = d := fun h => hdc h.symm
      simp only [reshuffleAux, lastQueueUpdate_append, ih (i + 1) hdq]
      by_cases hc : c ∈ live <;> simp [hc, lastQueueUpdate, hcd]

theorem reshuffleAux_last (i : Nat) (q live : List ConnId) (d : ConnId)
    (hnd : q.Nodup) (hlive : ∀ x ∈ q, x ∈ live) (hd : d ∈ q) :
    lastQueueUpdate d (reshuffleAux i q live) = some (i + q.indexOf d + 1) := by
  induction q generalizing i with
  | nil => cases hd
  | cons c q ih =>
      rcases List.mem_cons.mp hd with rfl | hmem
      · have hdq : d ∉ q := (List.nodup_cons.mp hnd).1
        have hcl : d ∈ live := hlive d (List.mem_cons_self d q)
        simp [reshuffleAux, lastQueueUpdate_append,
          reshuffleAux_not_mem _ _ _ _ hdq, hcl, lastQueueUpdate,
          List.indexOf_cons_self]
      · have hdc : d ≠ c := fun h =>
          (List.nodup_cons.mp hnd).1 (h ▸ hmem)
        have := ih (i + 1) (List.nodup_cons.mp hnd).2
          (fun x hx => hlive x (List.mem_cons_of_mem _ hx)) hmem
        simp only [reshuffleAux, lastQueueUpdate_append, this]
        rw [List.indexOf_cons_ne _ (Ne.symm hdc)]
        exact congrArg some (by omega)

theorem manageQueue_eq (p : List (ConnId × PlayerState)) (q live : List ConnId) :
    manageQueue p q live =
      if p.length < MAX_PLAYERS ∧ 0 < q.length then
        ((drainLoop (MAX_PLAYERS - p.length) q live).1 ++
          reshuffleAux 0 (drainLoop (MAX_PLAYERS - p.length) q live).2 live,
          (drainLoop (MAX_PLAYERS - p.length) q live).2)
      else ([], q) := rfl

theorem drainLoop_shape (n : Nat) (q live : List ConnId) (m : Msg)
    (h : m ∈ (drainLoop n q live).1) : m.2 = SMsg.loginAllowed := by
  induction n generalizing q with
  | zero => simp [drainLoop] at h
  | succ n ih =>
      cases q with
      | nil => simp [drainLoop] at h
      | cons c q =>
          simp only [drainLoop, List.mem_append] at h
          rcases h with h | h
          · by_cases hc : c ∈ live
            · simp only [if_pos hc, List.mem_singleton] at h
              simp [h]
            · simp [if_neg hc] at h
          · exact ih q h

theorem reshuffleAux_shape (i : Nat) (q live : List ConnId) (m : Msg)
    (h : m ∈ reshuffleAux i q live) : ∃ v, m.2 = SMsg.queueUpdate v := by
  induction q generalizing i with
  | nil => simp [reshuffleAux] at h
  | cons c q ih =>
      simp only [reshuffleAux, List.mem_append] at h
      rcases h with h | h
      · by_cases hc : c ∈ live
        · simp only [if_pos hc, List.mem_singleton] at h
          exact ⟨i + 1, by simp [h]⟩
        · simp [if_neg hc] at h
      · exact ih (i + 1) h

theorem drainLoop_fifo (a b : ConnId) (n : Nat) (q live : List ConnId)
    (hnd : q.Nodup) (ha : a ∈ live) (hsub : [a, b] <+ q) :
    ([a, b] <+ (drainLoop n q live).2 ∧ laMsg b ∉ (drainLoop n q live).1) ∨
      ∃ ms₁ ms₂, (drainLoop n q live).1 = ms₁ ++ laMsg a :: ms₂ ∧
        laMsg b ∉ ms₁ := by
  induction n generalizing q with
  | zero => exact Or.inl ⟨hsub, by simp [drainLoop]⟩
  | succ n ih =>
      cases q with
      | nil => exact absurd (hsub.subset (by simp)) (List.not_mem_nil a)
      | cons c q =>
          have hnd' : q.Nodup := (List.nodup_cons.mp hnd).2
          cases hsub with
          | cons₂ _ htl =>
              refine Or.inr ⟨[], (drainLoop n q live).1, ?_, by simp⟩
              simp [drainLoop, ha, laMsg]
          | cons _ htl =>
              have hb : b ∈ q := htl.subset (by simp)
              have hcb : c ≠ b := fun h => (List.nodup_cons.mp hnd).1 (h ▸ hb)
              have hhd : laMsg b ∉ (if c ∈ live then [(c, SMsg.loginAllowed)] else []) := by
                by_cases hc : c ∈ live <;> simp [hc, laMsg]
                exact fun h => hcb h.symm
              rcases ih q hnd' htl with ⟨h1, h2⟩ | ⟨ms₁, ms₂, h1, h2⟩
              · refine Or.inl ⟨by simpa [drainLoop] using h1, ?_⟩
                simp only [drainLoop, List.mem_append]
                rintro (h | h)
                · exact hhd h
                · exact h2 h
              · refine Or.inr
                  ⟨(if c ∈ live then [(c, SMsg.loginAllowed)] else []) ++ ms₁,
                    ms₂, ?_, ?_⟩
                · simp [drainLoop, h1]
                · simp only [List.mem_append]
                  rintro (h | h)
                  · exact hhd h
                  · exact h2 h

theorem manageQueue_queue_sublist (p : List (ConnId × PlayerState))
    (q live : List ConnId) : (manageQueue p q live).2 <+ q := by
  rw [manageQueue_eq]
  split
  · exact drainLoop_queue_sublist _ q live
  · exact List.Sublist.refl q

theorem manageQueue_status (a : ConnId) (p : List (ConnId × PlayerState))
    (q live : List ConnId) (ha : a ∈ live) (hq : a ∈ q) :
    a ∈ (manageQueue p q live).2 ∨ laMsg a ∈ (manageQueue p q live).1 := by
  rw [manageQueue_eq]
  split
  · rcases drainLoop_status (MAX_PLAYERS - p.length) q live a ha hq with h | h
    · exact Or.inl h
    · exact Or.inr (by simp [h])
  · exact Or.inl hq

theorem manageQueue_la_live (x : ConnId) (p : List (ConnId × PlayerState))
    (q live : List ConnId) (h : laMsg x ∈ (manageQueue p q live).1) : x ∈ live := by
  rw [manageQueue_eq] at h
  split at h
  · rcases List.mem_append.mp h with h | h
    · exact drainLoop_la_live _ q live x h
    · exact absurd h (reshuffleAux_no_la 0 _ live x)
  · simp at h

theorem manageQueue_fifo (a b : ConnId) (p : List (ConnId × PlayerState))
    (q live : List ConnId) (hnd : q.Nodup) (ha : a ∈ live) (hsub : [a, b] <+ q) :
    ([a, b] <+ (manageQueue p q live).2 ∧ laMsg b ∉ (manageQueue p q live).1) ∨
      ∃ ms₁ ms₂, (manageQueue p q live).1 = ms₁ ++ laMsg a :: ms₂ ∧
        laMsg b ∉ ms₁ := by
  rw [manageQueue_eq]
  split
  · rcases drainLoop_fifo a b (MAX_PLAYERS - p.length) q live hnd ha hsub with
      ⟨h1, h2⟩ | ⟨ms₁, ms₂, h1, h2⟩
    · refine Or.inl ⟨h1, ?_⟩
      simp only [List.mem_append]
      rintro (h | h)
      · exact h2 h
      · exact reshuffleAux_no_la 0 _ live b h
    · exact Or.inr ⟨ms₁,
        ms₂ ++ reshuffleAux 0 (drainLoop (MAX_PLAYERS - p.length) q live).2 live,
        by simp [h1], h2⟩
  · exact Or.inl ⟨hsub, by simp⟩

theorem manageQueue_last (p : List (ConnId × PlayerState)) (q live : List ConnId)
    (d : ConnId) (hnd : q.Nodup) (hlive : ∀ x ∈ q, x ∈ live)
    (hd : d ∈ (manageQueue p q live).2)
    (hbr : p.length < MAX_PLAYERS ∧ 0 < q.length) :
    lastQueueUpdate d (manageQueue p q live).1 =
      some ((manageQueue p q live).2.indexOf d + 1) := by
  rw [manageQueue_eq, if_pos hbr] at hd ⊢
  have hsub := drainLoop_queue_sublist (MAX_PLAYERS - p.length) q live
  have hnd2 : (drainLoop (MAX_PLAYERS - p.length) q live).2.Nodup := hsub.nodup hnd
  have hlive2 : ∀ x ∈ (drainLoop (MAX_PLAYERS - p.length) q live).2, x ∈ live :=
    fun x hx => hlive x (hsub.subset hx)
  rw [lastQueueUpdate_append, reshuffleAux_last 0 _ live d hnd2 hlive2 hd]
  simp

theorem tableGet_mem (t : List (ConnId × PlayerState)) (k : ConnId)
    (pl : PlayerState) (h : tableGet t k = some pl) : (k, pl) ∈ t := by
  unfold tableGet at h
  cases hf : t.find? (fun e => e.1 == k) with
  | none => rw [hf] at h; cases h
  | some e =>
      rw [hf] at h
      obtain rfl : e.2 = pl := by cases h; rfl
      have hm := List.mem_of_find?_eq_some hf
      have hp := List.find?_some hf
      have : e.1 = k := by simpa using hp
      exact this ▸ hm

theorem tableGet_cons (e : ConnId × PlayerState) (t : List (ConnId × PlayerState))
    (k : ConnId) :
    tableGet (e :: t) k = if (e.1 == k) = true then some e.2 else tableGet t k := by
  unfold tableGet
  rw [List.find?_cons]
  by_cases h : (e.1 == k) = true
  · rw [if_pos h, h]
  · rw [if_neg h, Bool.eq_false_iff.mpr h]

theorem tableGet_map_self (t : List (ConnId × PlayerState)) (k : ConnId)
    (v : PlayerState) (hf : (t.find? (fun e => e.1 == k)).isSome) :
    tableGet (t.map (fun e => if e.1 == k then (k, v) else e)) k = some v := by
  induction t with
  | nil => simp at hf
  | cons e t ih =>
      rw [List.map_cons, tableGet_cons]
      by_cases he : (e.1 == k) = true
      · rw [if_pos he]
        simp
      · rw [if_neg he]
        have hf' : (t.find? (fun e => e.1 == k)).isSome := by
          simpa [List.find?_cons, he] using hf
        simpa [he] using ih hf'

theorem tableGet_append_self (t : List (ConnId × PlayerState)) (k : ConnId)
    (v : PlayerState) (hf : ¬ (t.find? (fun e => e.1 == k)).isSome) :
    tableGet (t ++ [(k, v)]) k = some v := by
  induction t with
  | nil => simp [tableGet]
  | cons e t ih =>
      rw [List.cons_append, tableGet_cons]
      by_cases he : (e.1 == k) = true
      · simp [List.find?_cons, he] at hf
      · rw [if_neg he]
        have hf' : ¬ (t.find? (fun e => e.1 == k)).isSome := by
          simpa [List.find?_cons, he] using hf
        exact ih hf'

theorem tableGet_tableSet_self (t : List (ConnId × PlayerState)) (k : ConnId)
    (v : PlayerState) : tableGet (tableSet t k v) k = some v := by
  unfold tableSet
  split
  · exact tableGet_map_self t k v (by assumption)
  · exact tableGet_append_self t k v (by assumption)

theorem tableGet_map_ne (t : List (ConnId × PlayerState)) (k k' : ConnId)
    (v : PlayerState) (hne : k' ≠ k) :
    tableGet (t.map (fun e => if e.1 == k then (k, v) else e)) k' =
      tableGet t k' := by
  induction t with
  | nil => simp [tableGet]
  | cons e t ih =>
      rw [List.map_cons, tableGet_cons, tableGet_cons e t k']
      by_cases he : (e.1 == k) = true
      · have hek : e.1 = k := by simpa using he
        have h1 : ¬ (((k, v).1 : ConnId) == k') = true := by
          simp
          exact fun h => hne h.symm
        have h2 : ¬ (e.1 == k') = true := by
          rw [hek]
          simpa using h1
        rw [if_pos he, if_neg h1, if_neg h2]
        exact ih
      · rw [if_neg he]
        by_cases he' : (e.1 == k') = true
        · rw [if_pos he', if_pos he']
        · rw [if_neg he', if_neg he']
          exact ih

theorem tableGet_append_ne (t : List (ConnId × PlayerState)) (k k' : ConnId)
    (v : PlayerState) (hne : k' ≠ k) :
    tableGet (t ++ [(k, v)]) k' = tableGet t k' := by
  induction t with
  | nil =>
      simp only [List.nil_append, tableGet_cons]
      rw [if_neg (by simpa using fun h : k = k' => hne h.symm)]
  | cons e t ih =>
      rw [List.cons_append, tableGet_cons, tableGet_cons e t k']
      by_cases he' : (e.1 == k') = true
      · rw [if_pos he', if_pos he']
      · rw [if_neg he', if_neg he']
        exact ih

theorem tableGet_tableSet_ne (t : List (ConnId × PlayerState)) (k k' : ConnId)
    (v : PlayerState) (hne : k' ≠ k) :
    tableGet (tableSet t k v) k' = tableGet t k' := by
  unfold tableSet
  split
  · exact tableGet_map_ne t k k' v hne
  · exact tableGet_append_ne t k k' v hne

theorem tableDel_cons (e : ConnId × PlayerState) (t : List (ConnId × PlayerState))
    (k : ConnId) :
    tableDel (e :: t) k =
      if (e.1 == k) = true then tableDel t k else e :: tableDel t k := by
  unfold tableDel
  rw [List.filter_cons]
  by_cases he : (e.1 == k) = true
  · have hb : (e.1 != k) = false := by simp [bne, he]
    rw [hb, if_pos he, if_neg (by simp)]
  · have hb : (e.1 != k) = true := by
      simp only [bne, he]
      rfl
    rw [hb, if_neg he, if_pos rfl]

theorem tableGet_tableDel_self (t : List (ConnId × PlayerState)) (k : ConnId) :
    tableGet (tableDel t k) k = none := by
  induction t with
  | nil => simp [tableGet, tableDel]
  | cons e t ih =>
      rw [tableDel_cons]
      by_cases he : (e.1 == k) = true
      · rw [if_pos he]
        exact ih
      · rw [if_neg he, tableGet_cons, if_neg he]
        exact ih

theorem tableGet_tableDel_ne (t : List (ConnId × PlayerState)) (k k' : ConnId)
    (hne : k' ≠ k) : tableGet (tableDel t k) k' = tableGet t k' := by
  induction t with
  | nil => simp [tableGet, tableDel]
  | cons e t ih =>
      rw [tableDel_cons, tableGet_cons e t k']
      by_cases he : (e.1 == k) = true
      · have he' : ¬ (e.1 == k') = true := by
          simp
          intro h
          exact hne (h ▸ (by simpa using he))
        rw [if_pos he, if_neg he']
        exact ih
      · rw [if_neg he, tableGet_cons]
        by_cases he' : (e.1 == k') = true
        · rw [if_pos he', if_pos he']
        · rw [if_neg he', if_neg he']
          exact ih

theorem tableSet_mem (t : List (ConnId × PlayerState)) (k : ConnId)
    (v : PlayerState) (e : ConnId × PlayerState) (h : e ∈ tableSet t k v) :
    e = (k, v) ∨ e ∈ t := by
  unfold tableSet at h
  split at h
  · rcases List.mem_map.mp h with ⟨e', he', rfl⟩
    by_cases hk : (e'.1 == k) = true
    · simp [hk]
    · simp [hk, he']
  · rcases List.mem_append.mp h with h | h
    · exact Or.inr h
    · exact Or.inl (by simpa using h)

theorem tableDel_subset (t : List (ConnId × PlayerState)) (k : ConnId)
    (e : ConnId × PlayerState) (h : e ∈ tableDel t k) : e ∈ t :=
  List.mem_of_mem_filter h

theorem goodOut_of_not_mem (a b : ConnId) (xs : List Msg) (h : laMsg b ∉ xs) :
    GoodOut a b xs :=
  fun n hb => absurd (List.take_subset n xs hb) h

theorem goodOut_of_mem (a b : ConnId) (xs ys : List Msg) (h : laMsg b ∉ xs) :
    GoodOut a b (xs ++ laMsg a :: ys) := by
  intro n hb
  rw [List.take_append_eq_append_take] at hb ⊢
  rcases List.mem_append.mp hb with h1 | h1
  · exact absurd (List.take_subset _ _ h1) h
  · cases hn : n - xs.length with
    | zero => simp [hn] at h1
    | succ m =>
        rw [List.take_succ_cons]
        exact List.mem_append.mpr (Or.inr (List.mem_cons_self _ _))

theorem step_connect_eq (s : ServerState) (c : ConnId) :
    step s (.connect c) =
      (⟨s.players,
        (manageQueue s.players (s.loginQueue ++ [c]) (s.live ++ [c])).2,
        s.live ++ [c]⟩,
        (c, SMsg.queueUpdate (s.loginQueue ++ [c]).length) ::
          (manageQueue s.players (s.loginQueue ++ [c]) (s.live ++ [c])).1) := rfl

theorem step_spawn_eq (s : ServerState) (c : ConnId) (rx rz : Rat) (rc : Nat) :
    step s (.spawn c rx rz rc) =
      (⟨tableSet s.players c (spawnPlayer c rx rz rc),
        (manageQueue (tableSet s.players c (spawnPlayer c rx rz rc))
          s.loginQueue s.live).2,
        s.live⟩,
        (c, SMsg.currentPlayers (tableSet s.players c (spawnPlayer c rx rz rc))) ::
          (broadcastExcept s.live c (SMsg.newPlayer (spawnPlayer c rx rz rc)) ++
            (manageQueue (tableSet s.players c (spawnPlayer c rx rz rc))
              s.loginQueue s.live).1)) := rfl

theorem step_ping_eq (s : ServerState) (c : ConnId) :
    step s (.pingSync c) = (s, []) := rfl

theorem step_move_eq_some (s : ServerState) (c : ConnId) (pos : Vec3) (rot : Rat)
    (anim : String) (pl : PlayerState) (h : tableGet s.players c = some pl) :
    step s (.move c pos rot anim) =
      (⟨tableSet s.players c
          { pl with position := pos, rotation := rot, animation := anim },
        s.loginQueue, s.live⟩,
        broadcastExcept s.live c (SMsg.playerMoved
          { pl with position := pos, rotation := rot, animation := anim })) := by
  simp only [step]
  rw [h]

theorem step_move_eq_none (s : ServerState) (c : ConnId) (pos : Vec3) (rot : Rat)
    (anim : String) (h : tableGet s.players c = none) :
    step s (.move c pos rot anim) = (s, []) := by
  simp only [step]
  rw [h]

theorem step_disconnect_eq_some (s : ServerState) (c : ConnId) (pl : PlayerState)
    (h : tableGet s.players c = some pl) :
    step s (.disconnect c) =
      (⟨tableDel s.players c,
        (manageQueue (tableDel s.players c) (s.loginQueue.erase c)
          (s.live.erase c)).2,
        s.live.erase c⟩,
        broadcastAll (s.live.erase c) (SMsg.playerDisconnected c) ++
          (manageQueue (tableDel s.players c) (s.loginQueue.erase c)
            (s.live.erase c)).1) := by
  simp only [step]
  rw [h]

theorem step_disconnect_eq_none (s : ServerState) (c : ConnId)
    (h : tableGet s.players c = none) :
    step s (.disconnect c) =
      (⟨s.players,
        (manageQueue s.players (s.loginQueue.erase c) (s.live.erase c)).2,
        s.live.erase c⟩,
        (manageQueue s.players (s.loginQueue.erase c) (s.live.erase c)).1) := by
  simp only [step]
  rw [h]
  rfl

theorem inv_step (s : ServerState) (e : Event) (hInv : Inv s) (hwf : wfEvent s e) :
    Inv (step s e).1 := by
  obtain ⟨hlN, hqN, hql, hid⟩ := hInv
  cases e with
  | connect c =>
      have hcl : c ∉ s.live := hwf
      have hcq : c ∉ s.loginQueue := fun h => hcl (hql c h)
      rw [step_connect_eq]
      have hqN1 : (s.loginQueue ++ [c]).Nodup := by
        simp [List.nodup_append, hqN, hcq]
      have hsub := manageQueue_queue_sublist s.players (s.loginQueue ++ [c])
        (s.live ++ [c])
      refine ⟨by simp [List.nodup_append, hlN, hcl], hsub.nodup hqN1, ?_, hid⟩
      intro x hx
      rcases List.mem_append.mp (hsub.subset hx) with h | h
      · exact List.mem_append.mpr (Or.inl (hql x h))
      · exact List.mem_append.mpr (Or.inr h)
  | spawn c rx rz rc =>
      rw [step_spawn_eq]
      have hsub := manageQueue_queue_sublist
        (tableSet s.players c (spawnPlayer c rx rz rc)) s.loginQueue s.live
      refine ⟨hlN, hsub.nodup hqN, fun x hx => hql x (hsub.subset hx), ?_⟩
      intro x hx
      rcases tableSet_mem _ _ _ _ hx with rfl | hx'
      · rfl
      · exact hid x hx'
  | move c pos rot anim =>
      cases h : tableGet s.players c with
      | none => rw [step_move_eq_none s c pos rot anim h]; exact ⟨hlN, hqN, hql, hid⟩
      | some pl =>
          rw [step_move_eq_some s c pos rot anim pl h]
          refine ⟨hlN, hqN, hql, ?_⟩
          intro x hx
          rcases tableSet_mem _ _ _ _ hx with rfl | hx'
          · exact hid (c, pl) (tableGet_mem _ _ _ h)
          · exact hid x hx'
  | pingSync c => exact ⟨hlN, hqN, hql, hid⟩
  | disconnect c =>
      have hql1 : ∀ x ∈ s.loginQueue.erase c, x ∈ s.live.erase c := by
        intro x hx
        obtain ⟨hxc, hxq⟩ := hqN.mem_erase_iff.mp hx
        exact (List.mem_erase_of_ne hxc).mpr (hql x hxq)
      cases h : tableGet s.players c with
      | none =>
          rw [step_disconnect_eq_none s c h]
          have hsub := manageQueue_queue_sublist s.players (s.loginQueue.erase c)
            (s.live.erase c)
          exact ⟨hlN.erase c, hsub.nodup (hqN.erase c),
            fun x hx => hql1 x (hsub.subset hx), hid⟩
      | some pl =>
          rw [step_disconnect_eq_some s c pl h]
          have hsub := manageQueue_queue_sublist (tableDel s.players c)
            (s.loginQueue.erase c) (s.live.erase c)
          exact ⟨hlN.erase c, hsub.nodup (hqN.erase c),
            fun x hx => hql1 x (hsub.subset hx),
            fun x hx => hid x (tableDel_subset _ _ _ hx)⟩

theorem live_step_of_ne (s : ServerState) (e : Event) (a : ConnId)
    (ha : a ∈ s.live) (he : e ≠ .disconnect a) : a ∈ (step s e).1.live := by
  cases e with
  | connect c => rw [step_connect_eq]; exact List.mem_append.mpr (Or.inl ha)
  | spawn c rx rz rc => rw [step_spawn_eq]; exact ha
  | move c pos rot anim =>
      cases h : tableGet s.players c with
      | none => rw [step_move_eq_none s c pos rot anim h]; exact ha
      | some pl => rw [step_move_eq_some s c pos rot anim pl h]; exact ha
  | pingSync c => exact ha
  | disconnect c =>
      have hac : a ≠ c := fun h => he (by rw [h])
      cases h : tableGet s.players c with
      | none =>
          rw [step_disconnect_eq_none s c h]
          exact (List.mem_erase_of_ne hac).mpr ha
      | some pl =>
          rw [step_disconnect_eq_some s c pl h]
          exact (List.mem_erase_of_ne hac).mpr ha

theorem broadcastExcept_shape (live : List ConnId) (c : ConnId) (m : SMsg)
    (x : Msg) (h : x ∈ broadcastExcept live c m) : x.2 = m := by
  rcases List.mem_map.mp h with ⟨d, -, rfl⟩
  rfl

theorem broadcastAll_shape (live : List ConnId) (m : SMsg) (x : Msg)
    (h : x ∈ broadcastAll live m) : x.2 = m := by
  rcases List.mem_map.mp h with ⟨d, -, rfl⟩
  rfl

theorem la_step_live (s : ServerState) (e : Event) (x : ConnId)
    (h : laMsg x ∈ (step s e).2) : x ∈ (step s e).1.live := by
  cases e with
  | connect c =>
      rw [step_connect_eq] at h ⊢
      rcases List.mem_cons.mp h with h | h
      · cases h
      · exact manageQueue_la_live x _ _ _ h
  | spawn c rx rz rc =>
      rw [step_spawn_eq] at h ⊢
      rcases List.mem_cons.mp h with h | h
      · cases h
      · rcases List.mem_append.mp h with h | h
        · exact absurd (broadcastExcept_shape _ _ _ _ h) (by simp [laMsg])
        · exact manageQueue_la_live x _ _ _ h
  | move c pos rot anim =>
      cases hm : tableGet s.players c with
      | none => rw [step_move_eq_none s c pos rot anim hm] at h; cases h
      | some pl =>
          rw [step_move_eq_some s c pos rot anim pl hm] at h
          exact absurd (broadcastExcept_shape _ _ _ _ h) (by simp [laMsg])
  | pingSync c => cases h
  | disconnect c =>
      cases hm : tableGet s.players c with
      | none =>
          rw [step_disconnect_eq_none s c hm] at h ⊢
          exact manageQueue_la_live x _ _ _ h
      | some pl =>
          rw [step_disconnect_eq_some s c pl hm] at h ⊢
          rcases List.mem_append.mp h with h | h
          · exact absurd (broadcastAll_shape _ _ _ h) (by simp [laMsg])
          · exact manageQueue_la_live x _ _ _ h

theorem runFrom_append (s : ServerState) (u v : List Event) :
    runFrom s (u ++ v) = runFrom (runFrom s u) v := by
  induction u generalizing s with
  | nil => rfl
  | cons e u ih => simp only [List.cons_append, runFrom]; exact ih (step s e).1

theorem outputsFrom_append (s : ServerState) (u v : List Event) :
    outputsFrom s (u ++ v) = outputsFrom s u ++ outputsFrom (runFrom s u) v := by
  induction u generalizing s with
  | nil => rfl
  | cons e u ih =>
      simp only [List.cons_append, outputsFrom, runFrom, List.append_eq]
      rw [ih (step s e).1, List.append_assoc]

theorem wfTrace_append (s : ServerState) (u v : List Event) :
    wfTrace s (u ++ v) ↔ wfTrace s u ∧ wfTrace (runFrom s u) v := by
  induction u generalizing s with
  | nil => simp [wfTrace, runFrom]
  | cons e u ih =>
      simp only [List.cons_append, wfTrace, runFrom, List.append_eq]
      rw [ih (step s e).1, and_assoc]

theorem inv_run (s : ServerState) (es : List Event) (hInv : Inv s)
    (hwf : wfTrace s es) : Inv (runFrom s es) := by
  induction es generalizing s with
  | nil => exact hInv
  | cons e es ih => exact ih (step s e).1 (inv_step s e hInv hwf.1) hwf.2

theorem live_run (s : ServerState) (es : List Event) (a : ConnId)
    (ha : a ∈ s.live) (hd : Event.disconnect a ∉ es) : a ∈ (runFrom s es).live := by
  induction es generalizing s with
  | nil => exact ha
  | cons e es ih =>
      have he : e ≠ .disconnect a := fun h => hd (h ▸ List.mem_cons_self e es)
      exact ih (step s e).1 (live_step_of_ne s e a ha he)
        (fun h => hd (List.mem_cons_of_mem e h))

theorem status_step (s : ServerState) (e : Event) (a : ConnId) (hInv : Inv s)
    (ha : a ∈ s.live) (he : e ≠ .disconnect a) (hq : a ∈ s.loginQueue) :
    a ∈ (step s e).1.loginQueue ∨ laMsg a ∈ (step s e).2 := by
  obtain ⟨hlN, hqN, hql, hid⟩ := hInv
  cases e with
  | connect c =>
      rw [step_connect_eq]
      rcases manageQueue_status a s.players (s.loginQueue ++ [c]) (s.live ++ [c])
        (List.mem_append.mpr (Or.inl ha)) (List.mem_append.mpr (Or.inl hq)) with
        h | h
      · exact Or.inl h
      · exact Or.inr (List.mem_cons_of_mem _ h)
  | spawn c rx rz rc =>
      rw [step_spawn_eq]
      rcases manageQueue_status a (tableSet s.players c (spawnPlayer c rx rz rc))
        s.loginQueue s.live ha hq with h | h
      · exact Or.inl h
      · exact Or.inr (List.mem_cons_of_mem _ (List.mem_append.mpr (Or.inr h)))
  | move c pos rot anim =>
      cases hm : tableGet s.players c with
      | none => rw [step_move_eq_none s c pos rot anim hm]; exact Or.inl hq
      | some pl => rw [step_move_eq_some s c pos rot anim pl hm]; exact Or.inl hq
  | pingSync c => exact Or.inl hq
  | disconnect c =>
      have hac : a ≠ c := fun h => he (by rw [h])
      have hq1 : a ∈ s.loginQueue.erase c := (List.mem_erase_of_ne hac).mpr hq
      have ha1 : a ∈ s.live.erase c := (List.mem_erase_of_ne hac).mpr ha
      cases hm : tableGet s.players c with
      | none =>
          rw [step_disconnect_eq_none s c hm]
          exact manageQueue_status a s.players _ _ ha1 hq1
      | some pl =>
          rw [step_disconnect_eq_some s c pl hm]
          rcases manageQueue_status a (tableDel s.players c) _ _ ha1 hq1 with h | h
          · exact Or.inl h
          · exact Or.inr (List.mem_append.mpr (Or.inr h))

theorem status_run (es : List Event) (s : ServerState) (a : ConnId)
    (hwf : wfTrace s es) (hInv : Inv s) (ha : a ∈ s.live)
    (hd : Event.disconnect a ∉ es) (hq : a ∈ s.loginQueue) :
    a ∈ (runFrom s es).loginQueue ∨ laMsg a ∈ outputsFrom s es := by
  induction es generalizing s with
  | nil => exact Or.inl hq
  | cons e es ih =>
      have he : e ≠ .disconnect a := fun h => hd (h ▸ List.mem_cons_self e es)
      have hd' : Event.disconnect a ∉ es := fun h => hd (List.mem_cons_of_mem e h)
      rcases status_step s e a hInv ha he hq with h | h
      · rcases ih (step s e).1 hwf.2 (inv_step s e hInv hwf.1)
          (live_step_of_ne s e a ha he) hd' h with h' | h'
        · exact Or.inl h'
        · exact Or.inr (List.mem_append.mpr (Or.inr h'))
      · exact Or.inr (List.mem_append.mpr (Or.inl h))

theorem status_after_connect (u : List Event) (s : ServerState) (a : ConnId)
    (hwf : wfTrace s u) (hInv : Inv s) (hc : Event.connect a ∈ u)
    (hd : Event.disconnect a ∉ u) :
    a ∈ (runFrom s u).loginQueue ∨ laMsg a ∈ outputsFrom s u := by
  induction u generalizing s with
  | nil => cases hc
  | cons e u ih =>
      have hd' : Event.disconnect a ∉ u := fun h => hd (List.mem_cons_of_mem e h)
      by_cases hea : e = .connect a
      · subst hea
        have hq1 : a ∈ (step s (.connect a)).1.loginQueue ∨
            laMsg a ∈ (step s (.connect a)).2 := by
          rw [step_connect_eq]
          rcases manageQueue_status a s.players (s.loginQueue ++ [a])
            (s.live ++ [a]) (List.mem_append.mpr (Or.inr (by simp)))
            (List.mem_append.mpr (Or.inr (by simp))) with h | h
          · exact Or.inl h
          · exact Or.inr (List.mem_cons_of_mem _ h)
        have ha1 : a ∈ (step s (.connect a)).1.live := by
          rw [step_connect_eq]
          exact List.mem_append.mpr (Or.inr (by simp))
        rcases hq1 with h | h
        · rcases status_run u (step s (.connect a)).1 a hwf.2
            (inv_step s _ hInv hwf.1) ha1 hd' h with h' | h'
          · exact Or.inl h'
          · exact Or.inr (List.mem_append.mpr (Or.inr h'))
        · exact Or.inr (List.mem_append.mpr (Or.inl h))
      · have hc' : Event.connect a ∈ u := by
          rcases List.mem_cons.mp hc with h | h
          · exact absurd h.symm hea
          · exact h
        rcases ih (step s e).1 hwf.2 (inv_step s e hInv hwf.1) hc' hd' with h | h
        · exact Or.inl h
        · exact Or.inr (List.mem_append.mpr (Or.inr h))

theorem la_out_live (es : List Event) (s : ServerState) (x : ConnId)
    (hwf : wfTrace s es) (hd : Event.disconnect x ∉ es)
    (h : laMsg x ∈ outputsFrom s es ∨ x ∈ s.live) : x ∈ (runFrom s es).live := by
  induction es generalizing s with
  | nil =>
      rcases h with h | h
      · cases h
      · exact h
  | cons e es ih =>
      have he : e ≠ .disconnect x := fun hh => hd (hh ▸ List.mem_cons_self e es)
      have hd' : Event.disconnect x ∉ es := fun hh => hd (List.mem_cons_of_mem e hh)
      rcases h with h | h
      · rcases List.mem_append.mp h with h' | h'
        · exact ih (step s e).1 hwf.2 hd' (Or.inr (la_step_live s e x h'))
        · exact ih (step s e).1 hwf.2 hd' (Or.inl h')
      · exact ih (step s e).1 hwf.2 hd'
          (Or.inr (live_step_of_ne s e x h he))

theorem step_fifo (s : ServerState) (e : Event) (a b : ConnId) (hInv : Inv s)
    (hwf : wfEvent s e) (ha : a ∈ s.live) (hab : a ≠ b)
    (hea : e ≠ .disconnect a) (heb : e ≠ .disconnect b)
    (hsub : [a, b] <+ s.loginQueue) :
    ([a, b] <+ (step s e).1.loginQueue ∧ laMsg b ∉ (step s e).2) ∨
      ∃ ms₁ ms₂, (step s e).2 = ms₁ ++ laMsg a :: ms₂ ∧ laMsg b ∉ ms₁ := by
  obtain ⟨hlN, hqN, hql, hid⟩ := hInv
  cases e with
  | connect c =>
      have hcl : c ∉ s.live := hwf
      have hcq : c ∉ s.loginQueue := fun h => hcl (hql c h)
      have hqN1 : (s.loginQueue ++ [c]).Nodup := by
        simp [List.nodup_append, hqN, hcq]
      have hsub1 : [a, b] <+ s.loginQueue ++ [c] :=
        hsub.trans (List.sublist_append_left s.loginQueue [c])
      have ha1 : a ∈ s.live ++ [c] := List.mem_append.mpr (Or.inl ha)
      rw [step_connect_eq]
      rcases manageQueue_fifo a b s.players (s.loginQueue ++ [c]) (s.live ++ [c])
        hqN1 ha1 hsub1 with ⟨h1, h2⟩ | ⟨ms₁, ms₂, h1, h2⟩
      · refine Or.inl ⟨h1, ?_⟩
        intro hmem
        rcases List.mem_cons.mp hmem with h | h
        · cases h
        · exact h2 h
      · refine Or.inr ⟨(c, SMsg.queueUpdate (s.loginQueue ++ [c]).length) :: ms₁,
          ms₂, by simp [h1], ?_⟩
        intro hmem
        rcases List.mem_cons.mp hmem with h | h
        · cases h
        · exact h2 h
  | spawn c rx rz rc =>
      rw [step_spawn_eq]
      have hbc : laMsg b ∉
          broadcastExcept s.live c (SMsg.newPlayer (spawnPlayer c rx rz rc)) :=
        fun h => absurd (broadcastExcept_shape _ _ _ _ h) (by simp [laMsg])
      rcases manageQueue_fifo a b (tableSet s.players c (spawnPlayer c rx rz rc))
        s.loginQueue s.live hqN ha hsub with ⟨h1, h2⟩ | ⟨ms₁, ms₂, h1, h2⟩
      · refine Or.inl ⟨h1, ?_⟩
        intro hmem
        rcases List.mem_cons.mp hmem with h | h
        · cases h
        · rcases List.mem_append.mp h with h | h
          · exact hbc h
          · exact h2 h
      · refine Or.inr
          ⟨(c, SMsg.currentPlayers (tableSet s.players c (spawnPlayer c rx rz rc))) ::
            (broadcastExcept s.live c (SMsg.newPlayer (spawnPlayer c rx rz rc)) ++ ms₁),
            ms₂, by simp [h1], ?_⟩
        intro hmem
        rcases List.mem_cons.mp hmem with h | h
        · cases h
        · rcases List.mem_append.mp h with h | h
          · exact hbc h
          · exact h2 h
  | move c pos rot anim =>
      cases hm : tableGet s.players c with
      | none =>
          rw [step_move_eq_none s c pos rot anim hm]
          exact Or.inl ⟨hsub, by simp⟩
      | some pl =>
          rw [step_move_eq_some s c pos rot anim pl hm]
          exact Or.inl ⟨hsub,
            fun h => absurd (broadcastExcept_shape _ _ _ _ h) (by simp [laMsg])⟩
  | pingSync c =>
      rw [step_ping_eq]
      exact Or.inl ⟨hsub, by simp⟩
  | disconnect c =>
      have hac : a ≠ c := fun h => hea (by rw [h])
      have hbc : b ≠ c := fun h => heb (by rw [h])
      have hcnot : c ∉ ([a, b] : List ConnId) := by
        intro hmem
        rcases List.mem_cons.mp hmem with h | h
        · exact hac h.symm
        · exact hbc (List.mem_singleton.mp h).symm
      have hsub1 : [a, b] <+ s.loginQueue.erase c := by
        have := hsub.erase c
        rwa [List.erase_of_not_mem hcnot] at this
      have ha1 : a ∈ s.live.erase c := (List.mem_erase_of_ne hac).mpr ha
      cases hm : tableGet s.players c with
      | none =>
          rw [step_disconnect_eq_none s c hm]
          exact manageQueue_fifo a b s.players (s.loginQueue.erase c)
            (s.live.erase c) (hqN.erase c) ha1 hsub1
      | some pl =>
          rw [step_disconnect_eq_some s c pl hm]
          have hpd : laMsg b ∉
              broadcastAll (s.live.erase c) (SMsg.playerDisconnected c) :=
            fun h => absurd (broadcastAll_shape _ _ _ h) (by simp [laMsg])
          rcases manageQueue_fifo a b (tableDel s.players c) (s.loginQueue.erase c)
            (s.live.erase c) (hqN.erase c) ha1 hsub1 with
            ⟨h1, h2⟩ | ⟨ms₁, ms₂, h1, h2⟩
          · refine Or.inl ⟨h1, ?_⟩
            intro hmem
            rcases List.mem_append.mp hmem with h | h
            · exact hpd h
            · exact h2 h
          · refine Or.inr
              ⟨broadcastAll (s.live.erase c) (SMsg.playerDisconnected c) ++ ms₁,
                ms₂, by simp [h1], ?_⟩
            intro hmem
            rcases List.mem_append.mp hmem with h | h
            · exact hpd h
            · exact h2 h

theorem fifo_aux (a b : ConnId) (es : List Event) :
    ∀ (s : ServerState) (out : List Msg), wfTrace s es → Inv s → a ∈ s.live →
      a ≠ b → Event.disconnect a ∉ es → Event.disconnect b ∉ es →
      laMsg b ∉ out → [a, b] <+ s.loginQueue →
      GoodOut a b (out ++ outputsFrom s es) := by
  induction es with
  | nil =>
      intro s out _ _ _ _ _ _ hbout _
      exact goodOut_of_not_mem a b (out ++ []) (by simpa using hbout)
  | cons e es ih =>
      intro s out hwf hInv ha hab hda hdb hbout hsub
      have hea : e ≠ .disconnect a := fun h => hda (h ▸ List.mem_cons_self e es)
      have heb : e ≠ .disconnect b := fun h => hdb (h ▸ List.mem_cons_self e es)
      have hda' : Event.disconnect a ∉ es := fun h => hda (List.mem_cons_of_mem e h)
      have hdb' : Event.disconnect b ∉ es := fun h => hdb (List.mem_cons_of_mem e h)
      rcases step_fifo s e a b hInv hwf.1 ha hab hea heb hsub with
        ⟨h1, h2⟩ | ⟨ms₁, ms₂, h1, h2⟩
      · have hbout' : laMsg b ∉ out ++ (step s e).2 := by
          intro h
          rcases List.mem_append.mp h with h | h
          · exact hbout h
          · exact h2 h
        have := ih (step s e).1 (out ++ (step s e).2) hwf.2
          (inv_step s e hInv hwf.1) (live_step_of_ne s e a ha hea) hab
          hda' hdb' hbout' h1
        have heq : out ++ outputsFrom s (e :: es) =
            (out ++ (step s e).2) ++ outputsFrom (step s e).1 es := by
          show out ++ ((step s e).2 ++ outputsFrom (step s e).1 es) = _
          rw [List.append_assoc]
        rw [heq]
        exact this
      · have heq : out ++ outputsFrom s (e :: es) =
            (out ++ ms₁) ++ laMsg a :: (ms₂ ++ outputsFrom (step s e).1 es) := by
          show out ++ ((step s e).2 ++ outputsFrom (step s e).1 es) = _
          rw [h1]
          simp [List.append_assoc]
        rw [heq]
        refine goodOut_of_mem a b _ _ ?_
        intro h
        rcases List.mem_append.mp h with h | h
        · exact hbout h
        · exact h2 h

theorem filter_dest_map_none (l : List ConnId) (m : SMsg) (d : ConnId)
    (hd : d ∉ l) :
    (l.map (fun x => (x, m))).filter (fun e => e.1 == d) = [] := by
  rw [List.filter_eq_nil_iff]
  intro x hx
  rcases List.mem_map.mp hx with ⟨y, hy, rfl⟩
  simp only [beq_iff_eq]
  exact fun hh => hd (hh ▸ hy)

theorem filter_dest_map (l : List ConnId) (m : SMsg) (d : ConnId)
    (hnd : l.Nodup) (hd : d ∈ l) :
    (l.map (fun x => (x, m))).filter (fun e => e.1 == d) = [(d, m)] := by
  induction l with
  | nil => cases hd
  | cons e l ih =>
      rw [List.map_cons, List.filter_cons]
      rcases List.mem_cons.mp hd with rfl | hmem
      · rw [if_pos (by simp), filter_dest_map_none l m d (List.nodup_cons.mp hnd).1]
      · have hne : e ≠ d := fun hh => (List.nodup_cons.mp hnd).1 (hh ▸ hmem)
        rw [if_neg (by simpa using hne)]
        exact ih (List.nodup_cons.mp hnd).2 hmem

theorem filter_msg_map_none (l : List ConnId) (m : SMsg) (d : ConnId)
    (hd : d ∉ l) :
    (l.map (fun x => (x, m))).filter (fun e => e == (d, m)) = [] := by
  rw [List.filter_eq_nil_iff]
  intro x hx
  rcases List.mem_map.mp hx with ⟨y, hy, rfl⟩
  simp only [beq_iff_eq, Prod.mk.injEq, not_and]
  exact fun hh _ => hd (hh ▸ hy)

theorem filter_msg_map (l : List ConnId) (m : SMsg) (d : ConnId)
    (hnd : l.Nodup) (hd : d ∈ l) :
    (l.map (fun x => (x, m))).filter (fun e => e == (d, m)) = [(d, m)] := by
  induction l with
  | nil => cases hd
  | cons e l ih =>
      rw [List.map_cons, List.filter_cons]
      rcases List.mem_cons.mp hd with rfl | hmem
      · rw [if_pos (by simp), filter_msg_map_none l m d (List.nodup_cons.mp hnd).1]
      · have hne : e ≠ d := fun hh => (List.nodup_cons.mp hnd).1 (hh ▸ hmem)
        rw [if_neg (by simp [hne])]
        exact ih (List.nodup_cons.mp hnd).2 hmem

theorem broadcastAll_filter_dest (live : List ConnId) (d : ConnId) (m : SMsg)
    (hnd : live.Nodup) (hd : d ∈ live) :
    (broadcastAll live m).filter (fun e => e.1 == d) = [(d, m)] :=
  filter_dest_map live m d hnd hd

theorem broadcastExcept_filter_sender (live : List ConnId) (c : ConnId) (m : SMsg) :
    (broadcastExcept live c m).filter (fun e => e.1 == c) = [] := by
  refine filter_dest_map_none _ m c ?_
  intro h
  have := (List.mem_filter.mp h).2
  simp at this

theorem broadcastExcept_filter_dest (live : List ConnId) (c d : ConnId) (m : SMsg)
    (hnd : live.Nodup) (hd : d ∈ live) (hdc : d ≠ c) :
    (broadcastExcept live c m).filter (fun e => e.1 == d) = [(d, m)] :=
  filter_dest_map _ m d (hnd.filter _)
    (List.mem_filter.mpr ⟨hd, by simpa using hdc⟩)

theorem drainLoop_dest (n : Nat) (q live : List ConnId) (m : Msg)
    (h : m ∈ (drainLoop n q live).1) : m.1 ∈ q := by
  induction n generalizing q with
  | zero => simp [drainLoop] at h
  | succ n ih =>
      cases q with
      | nil => simp [drainLoop] at h
      | cons c q =>
          simp only [drainLoop, List.mem_append] at h
          rcases h with h | h
          · by_cases hc : c ∈ live
            · simp only [if_pos hc, List.mem_singleton] at h
              simp [h]
            · simp [if_neg hc] at h
          · exact List.mem_cons_of_mem c (ih q h)

theorem reshuffleAux_dest (i : Nat) (q live : List ConnId) (m : Msg)
    (h : m ∈ reshuffleAux i q live) : m.1 ∈ q := by
  induction q generalizing i with
  | nil => simp [reshuffleAux] at h
  | cons c q ih =>
      simp only [reshuffleAux, List.mem_append] at h
      rcases h with h | h
      · by_cases hc : c ∈ live
        · simp only [if_pos hc, List.mem_singleton] at h
          simp [h]
        · simp [if_neg hc] at h
      · exact List.mem_cons_of_mem c (ih (i + 1) h)

theorem manageQueue_dest (p : List (ConnId × PlayerState)) (q live : List ConnId)
    (m : Msg) (h : m ∈ (manageQueue p q live).1) : m.1 ∈ q := by
  rw [manageQueue_eq] at h
  split at h
  · rcases List.mem_append.mp h with h | h
    · exact drainLoop_dest _ q live m h
    · exact (drainLoop_queue_sublist _ q live).subset (reshuffleAux_dest _ _ live m h)
  · simp at h

theorem manageQueue_shape (p : List (ConnId × PlayerState)) (q live : List ConnId)
    (m : Msg) (h : m ∈ (manageQueue p q live).1) :
    m.2 = SMsg.loginAllowed ∨ ∃ v, m.2 = SMsg.queueUpdate v := by
  rw [manageQueue_eq] at h
  split at h
  · rcases List.mem_append.mp h with h | h
    · exact Or.inl (drainLoop_shape _ q live m h)
    · exact Or.inr (reshuffleAux_shape _ _ live m h)
  · simp at h

theorem inv_init : Inv initState := by decide

theorem live_after_connect (u : List Event) (s : ServerState) (a : ConnId)
    (hwf : wfTrace s u) (hc : Event.connect a ∈ u)
    (hd : Event.disconnect a ∉ u) : a ∈ (runFrom s u).live := by
  induction u generalizing s with
  | nil => cases hc
  | cons e u ih =>
      have hd' : Event.disconnect a ∉ u := fun h => hd (List.mem_cons_of_mem e h)
      by_cases hea : e = .connect a
      · subst hea
        have ha1 : a ∈ (step s (.connect a)).1.live := by
          rw [step_connect_eq]
          exact List.mem_append.mpr (Or.inr (by simp))
        exact live_run (step s (.connect a)).1 u a ha1 hd'
      · have hc' : Event.connect a ∈ u := by
          rcases List.mem_cons.mp hc with h | h
          · exact absurd h.symm hea
          · exact h
        exact ih (step s e).1 hwf.2 hc' hd'

theorem indexOf_append_self (l : List ConnId) (a : ConnId) (h : a ∉ l) :
    (l ++ [a]).indexOf a = l.length := by
  induction l with
  | nil => simp
  | cons e t ih =>
      have hae : a ≠ e := fun hh => h (hh ▸ List.mem_cons_self e t)
      rw [List.cons_append, List.indexOf_cons_ne _ (Ne.symm hae),
        ih (fun hh => h (List.mem_cons_of_mem e hh))]
      rfl

theorem lastQueueUpdate_append_of_some (d : ConnId) (xs ys : List Msg) (v : Nat)
    (h : lastQueueUpdate d ys = some v) :
    lastQueueUpdate d (xs ++ ys) = some v := by
  rw [lastQueueUpdate_append, h]

theorem tableSet_of_none (t : List (ConnId × PlayerState)) (k : ConnId)
    (v : PlayerState) (h : tableGet t k = none) : tableSet t k v = t ++ [(k, v)] := by
  unfold tableSet
  rw [if_neg ?hf]
  case hf =>
    cases hf : t.find? (fun e => e.1 == k) with
    | none => simp
    | some e =>
        unfold tableGet at h
        rw [hf] at h
        cases h

end Lemmas

/-- C6 (FIFO admission): if session `a` connects (hence is enqueued) strictly
before session `b` connects, and neither ever disconnects, then at no point
of the emitted message stream has `b`'s `loginAllowed` appeared without `a`'s
having appeared earlier. -/
theorem fifo_admission (a b : ConnId) (u v : List Event)
    (hwf : wfTrace initState (u ++ Event.connect b :: v))
    (hcu : Event.connect a ∈ u)
    (hda : Event.disconnect a ∉ u ++ Event.connect b :: v)
    (hdb : Event.disconnect b ∉ u ++ Event.connect b :: v) :
    GoodOut a b (outputsFrom initState (u ++ Event.connect b :: v)) := by
  have hwfu : wfTrace initState u := ((wfTrace_append _ u _).mp hwf).1
  have hwfv : wfTrace (runFrom initState u) (Event.connect b :: v) :=
    ((wfTrace_append _ u _).mp hwf).2
  have hInv₁ : Inv (runFrom initState u) := inv_run initState u inv_init hwfu
  have hdau : Event.disconnect a ∉ u := fun h => hda (List.mem_append.mpr (Or.inl h))
  have hdbu : Event.disconnect b ∉ u := fun h => hdb (List.mem_append.mpr (Or.inl h))
  have hdav : Event.disconnect a ∉ v := fun h =>
    hda (List.mem_append.mpr (Or.inr (List.mem_cons_of_mem _ h)))
  have hdbv : Event.disconnect b ∉ v := fun h =>
    hdb (List.mem_append.mpr (Or.inr (List.mem_cons_of_mem _ h)))
  have ha₁ : a ∈ (runFrom initState u).live :=
    live_after_connect u initState a hwfu hcu hdau
  have hbnl : b ∉ (runFrom initState u).live := hwfv.1
  have hab : a ≠ b := fun h => hbnl (h ▸ ha₁)
  have hbout : laMsg b ∉ outputsFrom initState u := fun h =>
    hbnl (la_out_live u initState b hwfu hdbu (Or.inl h))
  have htot : outputsFrom initState (u ++ Event.connect b :: v) =
      outputsFrom initState u ++
        ((step (runFrom initState u) (.connect b)).2 ++
          outputsFrom (step (runFrom initState u) (.connect b)).1 v) := by
    rw [outputsFrom_append]
    rfl
  rcases status_after_connect u initState a hwfu inv_init hcu hdau with hq | hout
  · -- a is still queued when b connects
    obtain ⟨hlN, hqN, hql, hid⟩ := id hInv₁
    have hbq : b ∉ (runFrom initState u).loginQueue := fun h => hbnl (hql b h)
    have hqN1 : ((runFrom initState u).loginQueue ++ [b]).Nodup := by
      simp [List.nodup_append, hqN, hbq]
    have hsub1 : [a, b] <+ (runFrom initState u).loginQueue ++ [b] := by
      have := List.Sublist.append (List.singleton_sublist.mpr hq)
        (List.Sublist.refl [b])
      simpa using this
    have ha1 : a ∈ (runFrom initState u).live ++ [b] :=
      List.mem_append.mpr (Or.inl ha₁)
    have hstep := step_connect_eq (runFrom initState u) b
    rcases manageQueue_fifo a b (runFrom initState u).players
      ((runFrom initState u).loginQueue ++ [b]) ((runFrom initState u).live ++ [b])
      hqN1 ha1 hsub1 with ⟨h1, h2⟩ | ⟨ms₁, ms₂, h1, h2⟩
    · -- neither admitted during the connect step: recurse over v
      have hq2 : [a, b] <+ (step (runFrom initState u) (.connect b)).1.loginQueue := by
        rw [hstep]
        exact h1
      have hbout2 : laMsg b ∉ outputsFrom initState u ++
          (step (runFrom initState u) (.connect b)).2 := by
        intro h
        rcases List.mem_append.mp h with h | h
        · exact hbout h
        · rw [hstep] at h
          rcases List.mem_cons.mp h with h | h
          · cases h
          · exact h2 h
      have ha2 : a ∈ (step (runFrom initState u) (.connect b)).1.live := by
        rw [hstep]
        exact List.mem_append.mpr (Or.inl ha₁)
      have := fifo_aux a b v (step (runFrom initState u) (.connect b)).1
        (outputsFrom initState u ++ (step (runFrom initState u) (.connect b)).2)
        hwfv.2 (inv_step _ _ hInv₁ hwfv.1) ha2 hab hdav hdbv hbout2 hq2
      rw [htot]
      rw [← List.append_assoc]
      exact this
    · -- a is admitted inside the connect step, before any admission of b
      have hnot : laMsg b ∉ outputsFrom initState u ++
          (b, SMsg.queueUpdate ((runFrom initState u).loginQueue ++ [b]).length) ::
            ms₁ := by
        intro h
        rcases List.mem_append.mp h with h | h
        · exact hbout h
        · rcases List.mem_cons.mp h with h | h
          · cases h
          · exact h2 h
      have hgood := goodOut_of_mem a b
        (outputsFrom initState u ++
          (b, SMsg.queueUpdate ((runFrom initState u).loginQueue ++ [b]).length) ::
            ms₁)
        (ms₂ ++ outputsFrom (step (runFrom initState u) (.connect b)).1 v) hnot
      rw [htot, hstep, h1]
      simpa [List.append_assoc] using hgood
  · -- a's loginAllowed was already emitted before b connected
    obtain ⟨x, y, hxy⟩ := List.append_of_mem hout
    rw [htot, hxy, List.append_assoc, List.cons_append]
    exact goodOut_of_mem a b x _
      (fun h => hbout (by rw [hxy]; exact List.mem_append.mpr (Or.inl h)))

theorem fifo_admission_witness :
    (wfTrace initState ([Event.connect 1] ++ Event.connect 2 :: []) ∧
      Event.connect 1 ∈ [Event.connect 1] ∧
      Event.disconnect 1 ∉ [Event.connect 1] ++ Event.connect 2 :: [] ∧
      Event.disconnect 2 ∉ [Event.connect 1] ++ Event.connect 2 :: []) ∧
    GoodOut 1 2 (outputsFrom initState ([Event.connect 1] ++ Event.connect 2 :: [])) :=
  ⟨⟨by decide, by decide, by decide, by decide⟩,
    fifo_admission 1 2 [Event.connect 1] [] (by decide) (by decide)
      (by decide) (by decide)⟩

/-- C7 (move semantics): a `move` from a connection with a player entry
overwrites that entry's position, rotation and animation, leaves every other
entry, the queue and the live set untouched, delivers exactly one message — a
`playerMoved` carrying the updated record — to every other live connection
and none to the mover; a `move` from a connection without an entry changes
nothing and emits nothing. -/
theorem move_semantics (s : ServerState) (c : ConnId) (pos : Vec3) (rot : Rat)
    (anim : String) (hInv : Inv s) :
    (∀ pl, tableGet s.players c = some pl →
      tableGet (step s (.move c pos rot anim)).1.players c =
        some { pl with position := pos, rotation := rot, animation := anim } ∧
      (∀ k, k ≠ c → tableGet (step s (.move c pos rot anim)).1.players k =
        tableGet s.players k) ∧
      (step s (.move c pos rot anim)).1.loginQueue = s.loginQueue ∧
      (step s (.move c pos rot anim)).1.live = s.live ∧
      (∀ d ∈ s.live, d ≠ c →
        (step s (.move c pos rot anim)).2.filter (fun m => m.1 == d) =
          [(d, SMsg.playerMoved
            { pl with position := pos, rotation := rot, animation := anim })]) ∧
      (step s (.move c pos rot anim)).2.filter (fun m => m.1 == c) = []) ∧
    (tableGet s.players c = none → step s (.move c pos rot anim) = (s, [])) := by
  constructor
  · intro pl hpl
    rw [step_move_eq_some s c pos rot anim pl hpl]
    refine ⟨tableGet_tableSet_self _ _ _,
      fun k hk => tableGet_tableSet_ne _ _ _ _ hk, rfl, rfl, ?_, ?_⟩
    · intro d hd hdc
      exact broadcastExcept_filter_dest s.live c d _ hInv.1 hd hdc
    · exact broadcastExcept_filter_sender s.live c _
  · intro h
    exact step_move_eq_none s c pos rot anim h

theorem move_semantics_witness :
    Inv ⟨[(1, spawnPlayer 1 0 0 0)], [], [1, 2]⟩ ∧
    (∀ pl, tableGet (ServerState.mk [(1, spawnPlayer 1 0 0 0)] [] [1, 2]).players
        1 = some pl →
      tableGet (step ⟨[(1, spawnPlayer 1 0 0 0)], [], [1, 2]⟩
          (.move 1 ⟨7, 5, 7⟩ 1 "Run")).1.players 1 =
        some { pl with position := ⟨7, 5, 7⟩, rotation := 1, animation := "Run" } ∧
      (∀ k, k ≠ 1 → tableGet (step ⟨[(1, spawnPlayer 1 0 0 0)], [], [1, 2]⟩
          (.move 1 ⟨7, 5, 7⟩ 1 "Run")).1.players k =
        tableGet (ServerState.mk [(1, spawnPlayer 1 0 0 0)] [] [1, 2]).players k) ∧
      (step ⟨[(1, spawnPlayer 1 0 0 0)], [], [1, 2]⟩
          (.move 1 ⟨7, 5, 7⟩ 1 "Run")).1.loginQueue = [] ∧
      (step ⟨[(1, spawnPlayer 1 0 0 0)], [], [1, 2]⟩
          (.move 1 ⟨7, 5, 7⟩ 1 "Run")).1.live = [1, 2] ∧
      (∀ d ∈ [1, 2], d ≠ 1 →
        (step ⟨[(1, spawnPlayer 1 0 0 0)], [], [1, 2]⟩
            (.move 1 ⟨7, 5, 7⟩ 1 "Run")).2.filter (fun m => m.1 == d) =
          [(d, SMsg.playerMoved
            { pl with position := ⟨7, 5, 7⟩, rotation := 1, animation := "Run" })]) ∧
      (step ⟨[(1, spawnPlayer 1 0 0 0)], [], [1, 2]⟩
          (.move 1 ⟨7, 5, 7⟩ 1 "Run")).2.filter (fun m => m.1 == 1) = []) :=
  ⟨by decide, (move_semantics ⟨[(1, spawnPlayer 1 0 0 0)], [], [1, 2]⟩ 1
    ⟨7, 5, 7⟩ 1 "Run" (by decide)).1⟩

/-- C10 (key-id coherence): in every reachable server state, every entry of
the player table stores a record whose `id` field equals its key. -/
theorem players_key_id (s : ServerState) (hs : Reachable s) :
    ∀ e ∈ s.players, e.2.id = e.1 := by
  obtain ⟨es, hwf, rfl⟩ := hs
  exact (inv_run initState es inv_init hwf).2.2.2

theorem players_key_id_witness :
    Reachable (runFrom initState [Event.connect 1, Event.spawn 1 0 0 0]) ∧
    ∀ e ∈ (runFrom initState [Event.connect 1, Event.spawn 1 0 0 0]).players,
      e.2.id = e.1 :=
  ⟨⟨[Event.connect 1, Event.spawn 1 0 0 0], by decide, rfl⟩,
    players_key_id _ ⟨[Event.connect 1, Event.spawn 1 0 0 0], by decide, rfl⟩⟩

/-- C5 (corrected): the `currentPlayers` reply to a spawning connection with
no prior entry carries the table with the sender's own freshly created record
appended — the table after the insertion, not before it; when no other player
is present the sender receives the singleton map of itself, not the empty
map. -/
theorem currentPlayers_reply (s : ServerState) (c : ConnId) (rx rz : Rat) (rc : Nat)
    (hnone : tableGet s.players c = none) :
    (step s (.spawn c rx rz rc)).2.head? =
      some (c, SMsg.currentPlayers (s.players ++ [(c, spawnPlayer c rx rz rc)])) ∧
    tableGet (s.players ++ [(c, spawnPlayer c rx rz rc)]) c =
      some (spawnPlayer c rx rz rc) ∧
    (s.players = [] →
      (step s (.spawn c rx rz rc)).2.head? =
        some (c, SMsg.currentPlayers [(c, spawnPlayer c rx rz rc)])) := by
  have hset := tableSet_of_none s.players c (spawnPlayer c rx rz rc) hnone
  refine ⟨?_, ?_, ?_⟩
  · rw [step_spawn_eq, hset]
    rfl
  · rw [← hset]
    exact tableGet_tableSet_self _ _ _
  · intro hp
    rw [step_spawn_eq, hset, hp]
    rfl

theorem currentPlayers_reply_witness :
    tableGet (runFrom initState [Event.connect 1]).players 1 = none ∧
    (step (runFrom initState [Event.connect 1]) (.spawn 1 0 0 0)).2.head? =
      some (1, SMsg.currentPlayers
        ((runFrom initState [Event.connect 1]).players ++
          [(1, spawnPlayer 1 0 0 0)])) :=
  ⟨by decide,
    (currentPlayers_reply (runFrom initState [Event.connect 1]) 1 0 0 0
      (by decide)).1⟩

/-- C5 counterexample: a single client connects (and is admitted) and sends
`spawn`; the `currentPlayers` it receives carries its own record — the claim
demands the table as it was before the insertion, the empty map here. -/
theorem currentPlayers_cex :
    wfTrace initState [Event.connect 1] ∧
    (runFrom initState [Event.connect 1]).players = [] ∧
    laMsg 1 ∈ outputsFrom initState [Event.connect 1] ∧
    (1, SMsg.currentPlayers [(1, spawnPlayer 1 0 0 0)]) ∈
      (step (runFrom initState [Event.connect 1]) (.spawn 1 0 0 0)).2 ∧
    (1, SMsg.currentPlayers []) ∉
      (step (runFrom initState [Event.connect 1]) (.spawn 1 0 0 0)).2 := by
  decide

/-- C8 (queue positions): the `queueUpdate` sent on connect carries the new
session's 1-based index in the queue at that moment (it was just appended, so
the index is the new length); and whenever a handler reaches the
drain-and-reshuffle branch of `manageQueue`, the last `queueUpdate` each
still-queued session received during the step equals its current 1-based
index in the post-step queue. -/
theorem queue_positions (s : ServerState) (e : Event) (hInv : Inv s)
    (hwf : wfEvent s e) :
    (∀ c, e = .connect c →
      (step s e).2.head? =
        some (c, SMsg.queueUpdate ((s.loginQueue ++ [c]).indexOf c + 1)) ∧
      (s.loginQueue ++ [c]).indexOf c + 1 = (s.loginQueue ++ [c]).length) ∧
    (reshuffleRan s e →
      ∀ sid ∈ (step s e).1.loginQueue,
        lastQueueUpdate sid (step s e).2 =
          some ((step s e).1.loginQueue.indexOf sid + 1)) := by
  obtain ⟨hlN, hqN, hql, hid⟩ := hInv
  constructor
  · rintro c rfl
    have hcq : c ∉ s.loginQueue := fun h => hwf (hql c h)
    have hidx : (s.loginQueue ++ [c]).indexOf c = s.loginQueue.length :=
      indexOf_append_self s.loginQueue c hcq
    constructor
    · have hlen : (s.loginQueue ++ [c]).length =
          (s.loginQueue ++ [c]).indexOf c + 1 := by
        rw [hidx]
        simp
      rw [step_connect_eq, ← hlen]
      rfl
    · rw [hidx]
      simp
  · intro hr sid hsid
    cases e with
    | connect c =>
        have hcl : c ∉ s.live := hwf
        have hcq : c ∉ s.loginQueue := fun h => hcl (hql c h)
        have hqN1 : (s.loginQueue ++ [c]).Nodup := by
          simp [List.nodup_append, hqN, hcq]
        have hql1 : ∀ x ∈ s.loginQueue ++ [c], x ∈ s.live ++ [c] := by
          intro x hx
          rcases List.mem_append.mp hx with h | h
          · exact List.mem_append.mpr (Or.inl (hql x h))
          · exact List.mem_append.mpr (Or.inr h)
        rw [step_connect_eq] at hsid ⊢
        have := manageQueue_last s.players (s.loginQueue ++ [c]) (s.live ++ [c])
          sid hqN1 hql1 hsid ⟨hr, by simp⟩
        exact lastQueueUpdate_append_of_some sid
          [(c, SMsg.queueUpdate (s.loginQueue ++ [c]).length)] _ _ this
    | spawn c rx rz rc =>
        rw [step_spawn_eq] at hsid ⊢
        have := manageQueue_last (tableSet s.players c (spawnPlayer c rx rz rc))
          s.loginQueue s.live sid hqN hql hsid hr
        exact lastQueueUpdate_append_of_some sid
          ((c, SMsg.currentPlayers (tableSet s.players c (spawnPlayer c rx rz rc))) ::
            broadcastExcept s.live c (SMsg.newPlayer (spawnPlayer c rx rz rc))) _ _
          this
    | move c pos rot anim => cases hr
    | pingSync c => cases hr
    | disconnect c =>
        simp only [reshuffleRan] at hr
        have hqN1 : (s.loginQueue.erase c).Nodup := hqN.erase c
        have hql1 : ∀ x ∈ s.loginQueue.erase c, x ∈ s.live.erase c := by
          intro x hx
          obtain ⟨hxc, hxq⟩ := hqN.mem_erase_iff.mp hx
          exact (List.mem_erase_of_ne hxc).mpr (hql x hxq)
        cases hm : tableGet s.players c with
        | none =>
            rw [hm] at hr
            rw [step_disconnect_eq_none s c hm] at hsid ⊢
            exact manageQueue_last s.players (s.loginQueue.erase c)
              (s.live.erase c) sid hqN1 hql1 hsid hr
        | some pl =>
            rw [hm] at hr
            rw [step_disconnect_eq_some s c pl hm] at hsid ⊢
            have := manageQueue_last (tableDel s.players c) (s.loginQueue.erase c)
              (s.live.erase c) sid hqN1 hql1 hsid hr
            exact lastQueueUpdate_append_of_some sid _ _ _ this

theorem queue_positions_witness :
    (Inv initState ∧ wfEvent initState (.connect 1) ∧
      Inv (runFrom initState fullWithQueue) ∧
      wfEvent (runFrom initState fullWithQueue) (.disconnect 1) ∧
      reshuffleRan (runFrom initState fullWithQueue) (.disconnect 1)) ∧
    ((step initState (.connect 1)).2.head? =
      some (1, SMsg.queueUpdate ((([] : List ConnId) ++ [1]).indexOf 1 + 1))) ∧
    (∀ sid ∈ (step (runFrom initState fullWithQueue) (.disconnect 1)).1.loginQueue,
      lastQueueUpdate sid (step (runFrom initState fullWithQueue) (.disconnect 1)).2 =
        some ((step (runFrom initState fullWithQueue)
          (.disconnect 1)).1.loginQueue.indexOf sid + 1)) :=
  ⟨⟨by decide, by decide, by decide, by decide, by decide⟩,
    ((queue_positions initState (.connect 1) (by decide) (by decide)).1 1 rfl).1,
    (queue_positions (runFrom initState fullWithQueue) (.disconnect 1)
      (by decide) (by decide)).2 (by decide)⟩

/-- C9 (corrected): when a connection with a player entry disconnects, its
entry is removed and no other entry changes; every remaining live connection
receives exactly one `playerDisconnected` carrying its id; nothing is sent to
the departing connection; and the handler never reorders the remaining queue —
the post-step queue is a sublist of the prior queue with the departing id
erased, and it stays empty when nothing was queued.  (The claim's "queue
unchanged" fails: the capacity freed by the removal lets `manageQueue` admit
queued sessions, see the counterexample.) -/
theorem disconnect_admitted (s : ServerState) (c : ConnId) (pl : PlayerState)
    (hInv : Inv s) (hc : c ∈ s.live) (hpl : tableGet s.players c = some pl) :
    tableGet (step s (.disconnect c)).1.players c = none ∧
    (∀ k, k ≠ c → tableGet (step s (.disconnect c)).1.players k =
      tableGet s.players k) ∧
    (∀ d ∈ s.live.erase c,
      (step s (.disconnect c)).2.filter
        (fun m => m == (d, SMsg.playerDisconnected c)) =
        [(d, SMsg.playerDisconnected c)]) ∧
    (step s (.disconnect c)).2.filter (fun m => m.1 == c) = [] ∧
    (step s (.disconnect c)).1.loginQueue <+ s.loginQueue.erase c ∧
    (s.loginQueue.erase c = [] → (step s (.disconnect c)).1.loginQueue = []) := by
  obtain ⟨hlN, hqN, hql, hid⟩ := hInv
  rw [step_disconnect_eq_some s c pl hpl]
  refine ⟨tableGet_tableDel_self _ _,
    fun k hk => tableGet_tableDel_ne _ _ _ hk, ?_, ?_, ?_, ?_⟩
  · intro d hd
    rw [List.filter_append]
    have h1 : (broadcastAll (s.live.erase c) (SMsg.playerDisconnected c)).filter
        (fun m => m == (d, SMsg.playerDisconnected c)) =
        [(d, SMsg.playerDisconnected c)] :=
      filter_msg_map (s.live.erase c) _ d (hlN.erase c) hd
    have h2 : (manageQueue (tableDel s.players c) (s.loginQueue.erase c)
        (s.live.erase c)).1.filter
        (fun m => m == (d, SMsg.playerDisconnected c)) = [] := by
      rw [List.filter_eq_nil_iff]
      intro m hm
      rcases manageQueue_shape _ _ _ m hm with h | ⟨v, h⟩ <;>
        · simp only [beq_iff_eq]
          intro hh
          rw [hh] at h
          cases h
    rw [h1, h2]
    rfl
  · rw [List.filter_append]
    have h1 : (broadcastAll (s.live.erase c) (SMsg.playerDisconnected c)).filter
        (fun m => m.1 == c) = [] :=
      filter_dest_map_none _ _ c (hlN.not_mem_erase ∘ id)
    have h2 : (manageQueue (tableDel s.players c) (s.loginQueue.erase c)
        (s.live.erase c)).1.filter (fun m => m.1 == c) = [] := by
      rw [List.filter_eq_nil_iff]
      intro m hm
      have := manageQueue_dest _ _ _ m hm
      simp only [beq_iff_eq]
      intro hh
      rw [hh] at this
      exact hqN.not_mem_erase this
    rw [h1, h2]
    rfl
  · exact manageQueue_queue_sublist _ _ _
  · intro hq
    rw [manageQueue_eq, hq]
    simp

theorem disconnect_admitted_witness :
    (Inv ⟨[(1, spawnPlayer 1 0 0 0), (2, spawnPlayer 2 0 0 0)], [], [1, 2]⟩ ∧
      1 ∈ [1, 2] ∧
      tableGet [(1, spawnPlayer 1 0 0 0), (2, spawnPlayer 2 0 0 0)] 1 =
        some (spawnPlayer 1 0 0 0)) ∧
    tableGet (step ⟨[(1, spawnPlayer 1 0 0 0), (2, spawnPlayer 2 0 0 0)], [], [1, 2]⟩
      (.disconnect 1)).1.players 1 = none ∧
    (∀ d ∈ ([1, 2] : List ConnId).erase 1,
      (step ⟨[(1, spawnPlayer 1 0 0 0), (2, spawnPlayer 2 0 0 0)], [], [1, 2]⟩
        (.disconnect 1)).2.filter
        (fun m => m == (d, SMsg.playerDisconnected 1)) =
        [(d, SMsg.playerDisconnected 1)]) :=
  ⟨⟨by decide, by decide, by decide⟩,
    (disconnect_admitted ⟨[(1, spawnPlayer 1 0 0 0), (2, spawnPlayer 2 0 0 0)],
      [], [1, 2]⟩ 1 (spawnPlayer 1 0 0 0) (by decide) (by decide) (by decide)).1,
    (disconnect_admitted ⟨[(1, spawnPlayer 1 0 0 0), (2, spawnPlayer 2 0 0 0)],
      [], [1, 2]⟩ 1 (spawnPlayer 1 0 0 0) (by decide) (by decide)
      (by decide)).2.2.1⟩

/-- C9 counterexample: with the server full (20 players) and sessions 21 and
22 queued, the admitted player 1 — which holds an entry and is not queued —
disconnects; the handler admits session 21 from the queue, so the queue
changes from `[21, 22]` to `[22]`, refuting "the admission queue's contents
and order are unchanged". -/
theorem disconnect_queue_cex :
    wfTrace initState fullWithQueue ∧
    tableGet (runFrom initState fullWithQueue).players 1 =
      some (spawnPlayer 1 0 0 0) ∧
    1 ∉ (runFrom initState fullWithQueue).loginQueue ∧
    (runFrom initState fullWithQueue).loginQueue = [21, 22] ∧
    (step (runFrom initState fullWithQueue) (.disconnect 1)).1.loginQueue = [22] ∧
    laMsg 21 ∈ (step (runFrom initState fullWithQueue) (.disconnect 1)).2 := by
  decide

/-- C1 (cap violated): a well-formed trace in which 21 sessions connect —
every one of them receives `loginAllowed`, because `manageQueue` counts only
spawned players — and then all 21 spawn, leaving 21 > `MAX_PLAYERS` = 20
entries in the player table. -/
theorem cap_exceeded :
    wfTrace initState capTrace ∧
    (∀ i ∈ List.range 21, laMsg (i + 1) ∈ outputsFrom initState capConnects) ∧
    MAX_PLAYERS = 20 ∧
    (runFrom initState capTrace).players.length = 21 := by
  decide

/-- C4 (guard missing): the `spawn` handler ignores nothing.  A session that
already has an entry and spawns again gets its entry overwritten and triggers
fresh `currentPlayers`/`newPlayer` traffic; a queued session that never
received `loginAllowed` (21 below, with the server full) spawns successfully,
growing the table past the cap. -/
theorem spawn_not_guarded :
    (wfTrace initState (soloSpawn ++ [Event.spawn 1 7 7 0]) ∧
      tableGet (runFrom initState soloSpawn).players 1 =
        some (spawnPlayer 1 0 0 0) ∧
      (step (runFrom initState soloSpawn) (.spawn 1 7 7 0)).2 ≠ [] ∧
      (1, SMsg.currentPlayers [(1, spawnPlayer 1 7 7 0)]) ∈
        (step (runFrom initState soloSpawn) (.spawn 1 7 7 0)).2 ∧
      tableGet (step (runFrom initState soloSpawn)
        (.spawn 1 7 7 0)).1.players 1 =
        some (spawnPlayer 1 7 7 0) ∧
      spawnPlayer 1 7 7 0 ≠ spawnPlayer 1 0 0 0) ∧
    (wfTrace initState (fullWithQueue ++ [Event.spawn 21 0 0 0]) ∧
      laMsg 21 ∉ outputsFrom initState fullWithQueue ∧
      tableGet (runFrom initState fullWithQueue).players 21 = none ∧
      tableGet (runFrom initState
        (fullWithQueue ++ [Event.spawn 21 0 0 0])).players 21 =
        some (spawnPlayer 21 0 0 0) ∧
      (runFrom initState
        (fullWithQueue ++ [Event.spawn 21 0 0 0])).players.length = 21) := by
  decide

/-- C2 (spawn store round-trip, spec-modelled): `set(p)` followed by `get()`
returns `p` unconditionally (the in-memory value is updated even on
persistence failure), and when the write persisted, a fresh process that runs
`load()` also reads back `p`. -/
theorem spawn_roundtrip (st : SpawnStore) (p : Vec3) (ok : Bool) :
    spawnStoreGet (spawnStoreSet st p ok) = p ∧
    (ok = true →
      spawnStoreGet (spawnStoreLoad (spawnStoreSet st p ok).file) = p) := by
  refine ⟨rfl, ?_⟩
  rintro rfl
  rfl

theorem spawn_roundtrip_witness :
    spawnStoreGet (spawnStoreSet (spawnStoreLoad none) ⟨7, 5, -2⟩ true) =
      ⟨7, 5, -2⟩ ∧
    spawnStoreGet (spawnStoreLoad
      (spawnStoreSet (spawnStoreLoad none) ⟨7, 5, -2⟩ true).file) = ⟨7, 5, -2⟩ :=
  ⟨(spawn_roundtrip (spawnStoreLoad none) ⟨7, 5, -2⟩ true).1,
    (spawn_roundtrip (spawnStoreLoad none) ⟨7, 5, -2⟩ true).2 rfl⟩

/-- C3 (spawnPointUpdated fan-out, spec-modelled): the `updateSpawnPoint`
handler broadcasts to all live connections, so every live connection — the
sender included — receives exactly one message, a `spawnPointUpdated` carrying
the new value. -/
theorem updateSpawnPoint_fanout (st : SpawnStore) (live : List ConnId)
    (v : Vec3) (ok : Bool) (hnd : live.Nodup) :
    ∀ d ∈ live,
      (updateSpawnPoint st live v ok).2.filter (fun m => m.1 == d) =
        [(d, SMsg.spawnPointUpdated v)] := by
  intro d hd
  exact filter_dest_map live (SMsg.spawnPointUpdated v) d hnd hd

theorem updateSpawnPoint_fanout_witness :
    (([1, 2] : List ConnId).Nodup ∧ 1 ∈ ([1, 2] : List ConnId)) ∧
    (updateSpawnPoint (spawnStoreLoad none) [1, 2] ⟨7, 5, -2⟩ true).2.filter
      (fun m => m.1 == 1) = [(1, SMsg.spawnPointUpdated ⟨7, 5, -2⟩)] :=
  ⟨⟨by decide, by decide⟩,
    updateSpawnPoint_fanout (spawnStoreLoad none) [1, 2] ⟨7, 5, -2⟩ true
      (by decide) 1 (by decide)⟩

end Gamemode
